import Mathlib

/-!
Shallow embedding of `worldbox_realworld.py`: the population loader
(`download_population_data`), the name reconciler (the `pop_map` loop in
`main`), the polygon synthesizer (`make_regular_polygon` and the
radius/side-count rules), and the output-record loop of `main`.
Machine floats are modelled as exact numbers (`ℚ` for population values,
`ℝ` for geometry); pandas frames are lists of rows.
-/

namespace WorldBox

/-- Target year constant `POP_YEAR = 2023` from the source. -/
def POP_YEAR : Int := 2023

/-- Fuzzy-match confidence threshold used in `main` (`score > 85`). -/
def FUZZY_THRESHOLD : Nat := 85

/-- Raw population CSV row before numeric parsing: a name, a year, and the
population cell, where `none` stands for a value `pd.to_numeric(errors="coerce")`
turns into NaN (unparseable). -/
structure RawRow where
  name : String
  year : Int
  value : Option ℚ
deriving DecidableEq

/-- Population row after parsing and `dropna()`: name, year and a numeric
population value. -/
structure PRow where
  name : String
  year : Int
  population : ℚ
deriving DecidableEq

/-- Code-point lexicographic comparison of character lists, the order Python
and pandas use on strings. -/
def charListLt : List Char → List Char → Bool
  | [], [] => false
  | [], _ :: _ => true
  | _ :: _, [] => false
  | a :: as, b :: bs => if a < b then true else if b < a then false else charListLt as bs

/-- String comparison by code points, as in `df.sort_values` on a string
column. -/
def strLt (a b : String) : Bool :=
  charListLt a.data b.data

/-- Character-wise lowercasing, modelling `str.lower()` on the names
involved. -/
def strLower (s : String) : String :=
  ⟨s.data.map Char.toLower⟩

/-- Lexicographic (name, year) key comparison used by
`df.sort_values(by=[name_col, year_col])`. -/
def keyLE (a b : RawRow) : Bool :=
  strLt a.name b.name || (a.name == b.name && decide (a.year ≤ b.year))

/-- Stable insertion into a (name, year)-sorted list: the new row goes after
every existing row whose key is ≤ its key. -/
def sInsert (r : RawRow) : List RawRow → List RawRow
  | [] => [r]
  | x :: xs => if keyLE x r then x :: sInsert r xs else r :: x :: xs

/-- Stable sort by (name, year), modelling `df.sort_values(by=[name_col, year_col])`. -/
def sSort (l : List RawRow) : List RawRow :=
  l.foldl (fun acc r => sInsert r acc) []

/-- Last row of each run of equal names in a name-sorted list, modelling
`groupby(name_col).tail(1)` on the sorted frame. -/
def groupTail : List RawRow → List RawRow
  | [] => []
  | [r] => [r]
  | r :: r' :: rest =>
    if r.name == r'.name then groupTail (r' :: rest)
    else r :: groupTail (r' :: rest)

/-- Year-selection step of `download_population_data` (lines 47-50): if any row
carries `POP_YEAR` keep only rows of that year, otherwise keep, per name, the
row with the latest year. -/
def yearSelect (df : List RawRow) : List RawRow :=
  if df.any (fun r => r.year == POP_YEAR) then df.filter (fun r => r.year == POP_YEAR)
  else groupTail (sSort df)

/-- Numeric parsing plus `dropna()` (lines 52-53): rows whose population cell
did not parse are discarded, the rest become `PRow`s. -/
def toParsed (df : List RawRow) : List PRow :=
  df.filterMap (fun r => r.value.map (fun v => ⟨r.name, r.year, v⟩))

/-- The loader `download_population_data` after CSV/column plumbing: year
selection first (on the raw frame), then numeric parsing and `dropna()`,
exactly in the source's order. -/
def download_population_data (df : List RawRow) : List PRow :=
  toParsed (yearSelect df)

/-- Loader in the order the specification describes: discard unparseable rows
first, then perform year selection. Defined only to be compared with
`download_population_data`. -/
def claimedLoader (df : List RawRow) : List PRow :=
  toParsed (yearSelect (df.filter (fun r => r.value.isSome)))

/-- First-occurrence deduplication, modelling `pop_df["country"].unique()`. -/
def uniqueNames (l : List String) : List String :=
  match l with
  | [] => []
  | x :: xs => x :: uniqueNames (xs.filter (fun y => y ≠ x))
termination_by l.length
decreasing_by
  simp only [List.length_cons]
  exact Nat.lt_succ_of_le (List.length_filter_le _ _)

/-- Best-scoring candidate, modelled from the spec: `fuzzywuzzy`'s
`process.extractOne` (not part of this repository) returns the
highest-scoring choice, first among equal top scores, and `None` on an
empty choice list. `g` is the similarity score against the query. -/
def extractOne (g : String → Nat) : List String → Option (String × Nat)
  | [] => none
  | c :: cs =>
    some (cs.foldl (fun acc c' => if g c' > acc.2 then (c', g c') else acc) (c, g c))

/-- One iteration of the `pop_map` reconciliation loop of `main` (lines 75-84)
for a single canonical name. Returns `some result` on normal completion
(`result = none` meaning unmatched) and `none` where the Python would raise:
unpacking `extractOne`'s `None`, or `.iloc[0]` on an empty frame. `f` is the
fuzzy scorer (query, choice) ↦ score. -/
def matchPopE (popDf : List PRow) (popNames : List String) (f : String → String → Nat)
    (cname : String) : Option (Option ℚ) :=
  match popDf.filter (fun r => strLower r.name == strLower cname) with
  | p :: _ => some (some p.population)
  | [] =>
    match extractOne (f cname) popNames with
    | none => none
    | some (best, score) =>
      if score > FUZZY_THRESHOLD then
        match popDf.filter (fun r => r.name == best) with
        | p :: _ => some (some p.population)
        | [] => none
      else some none

/-- The `pop_map` dictionary: keys are canonical names, a stored value of
`none` records an unmatched region (Python `None`). -/
def PMap : Type := String → Option (Option ℚ)

/-- Dictionary insertion with overwrite, `pop_map[cname] = v`. -/
def pmInsert (m : PMap) (k : String) (v : Option ℚ) : PMap :=
  fun k' => if k' = k then some v else m k'

/-- Empty dictionary `pop_map = {}`. -/
def pmEmpty : PMap := fun _ => none

/-- Dictionary read `pop_map.get(k, None)`: an absent key and a stored `None`
both yield `None`. -/
def pmGet (m : PMap) (k : String) : Option ℚ :=
  (m k).getD none

/-- The reconciliation loop of `main` (lines 73-84) over the world rows,
threading the dictionary; `none` if some iteration raised. -/
def buildPopMapAux (popDf : List PRow) (popNames : List String)
    (f : String → String → Nat) (m : PMap) : List String → Option PMap
  | [] => some m
  | cname :: rest =>
    match matchPopE popDf popNames f cname with
    | none => none
    | some v => buildPopMapAux popDf popNames f (pmInsert m cname v) rest

/-- The full `pop_map` construction starting from the empty dictionary. -/
def buildPopMap (popDf : List PRow) (popNames : List String)
    (f : String → String → Nat) (cnames : List String) : Option PMap :=
  buildPopMapAux popDf popNames f pmEmpty cnames

/-- Population bucketing of `main` line 104:
`int(ceil(pop_val / 1_000_000)) if pop_val else None`. A `none` raw value or a
zero raw value is falsy and yields `none`; any nonzero value (negative ones
included) is truthy and yields the ceiling. -/
def popMillions (v : Option ℚ) : Option ℤ :=
  match v with
  | none => none
  | some q => if q = 0 then none else some ⌈q / 1000000⌉

/-- Boundary geometry of a world row, reduced to the attributes the script
reads: `is_empty`, the representative point, and the area. -/
structure Geom where
  empty : Bool
  repX : ℝ
  repY : ℝ
  area : ℝ

/-- A row of the boundary frame `world`: display name, iso3 code, and an
optional geometry (`None` in the frame is `none` here). -/
structure WorldRow where
  country : String
  iso3 : String
  geometry : Option Geom

/-- One entry of the `countries` list written to `worldbox_state.json`. -/
structure OutputRecord where
  country : String
  iso3 : String
  population_raw : Option ℚ
  population_millions : Option ℤ
deriving DecidableEq

/-- Radius rule of `main` line 98: `max(0.5, (area ** 0.5) * 0.6)`. -/
noncomputable def radiusOf (area : ℝ) : ℝ :=
  max 0.5 (Real.sqrt area * 0.6)

/-- Side-count rule of `main` line 99:
`4 if radius < 0.8 else (6 if radius < 2.0 else (8 if radius < 4.0 else 12))`. -/
noncomputable def sidesOf (radius : ℝ) : ℕ :=
  if radius < 0.8 then 4 else if radius < 2.0 then 6 else if radius < 4.0 then 8 else 12

/-- Vertex list of `make_regular_polygon` (lines 55-61): point `i` sits at
angle `rot + 2*pi*i/sides` on the circle of the given radius around
`(cx, cy)`. -/
noncomputable def make_regular_polygon (cx cy radius : ℝ) (sides : ℕ) (rot : ℝ) :
    List (ℝ × ℝ) :=
  (List.range sides).map (fun i =>
    (cx + radius * Real.cos (rot + 2 * Real.pi * i / sides),
     cy + radius * Real.sin (rot + 2 * Real.pi * i / sides)))

/-- Per-region loop of `main` (lines 91-110): regions with missing or empty
geometry are skipped; for the rest a polygon is synthesized (rotation 0.5) and
an output record is appended. Returns (plotted polygons, `countries`). -/
noncomputable def mainLoop (look : String → Option ℚ) :
    List WorldRow → List (List (ℝ × ℝ)) × List OutputRecord
  | [] => ([], [])
  | r :: rs =>
    match r.geometry with
    | none => mainLoop look rs
    | some g =>
      if g.empty then mainLoop look rs
      else
        (make_regular_polygon g.repX g.repY (radiusOf g.area)
            (sidesOf (radiusOf g.area)) 0.5 :: (mainLoop look rs).1,
         { country := r.country, iso3 := r.iso3,
           population_raw := look r.country,
           population_millions := popMillions (look r.country) } :: (mainLoop look rs).2)

/-- Guard of the skip test in `main` lines 93-94: a row participates exactly
when its geometry is present and non-empty. -/
def hasGeom (r : WorldRow) : Bool :=
  match r.geometry with
  | none => false
  | some g => !g.empty

/-- The whole pipeline after I/O: load and reduce the population frame, build
`pop_map` over the world rows' names, then run the per-region loop; `none` if
the reconciliation loop raised. -/
noncomputable def runPipeline (f : String → String → Nat) (popRaw : List RawRow)
    (world : List WorldRow) : Option (List (List (ℝ × ℝ)) × List OutputRecord) :=
  let popDf := download_population_data popRaw
  let popNames := uniqueNames (popDf.map (fun r => r.name))
  match buildPopMap popDf popNames f (world.map (fun r => r.country)) with
  | none => none
  | some m => some (mainLoop (pmGet m) world)

/-! Helper lemmas. -/

/-- Every record the per-region loop emits carries millions bucketed from its
own raw population value. -/
theorem mainLoop_millions (look : String → Option ℚ) (w : List WorldRow) :
    ∀ rec ∈ (mainLoop look w).2, rec.population_millions = popMillions rec.population_raw := by
  induction w with
  | nil => intro rec h; simp [mainLoop] at h
  | cons r rs ih =>
    intro rec h
    cases hg : r.geometry with
    | none =>
      rw [mainLoop, hg] at h
      exact ih rec h
    | some g =>
      rw [mainLoop, hg] at h
      cases hge : g.empty with
      | true =>
        simp only [hge, if_true] at h
        exact ih rec h
      | false =>
        simp only [hge, Bool.false_eq_true, if_false] at h
        rcases List.mem_cons.mp h with h | h
        · subst h; rfl
        · exact ih rec h

/-- Lexicographic character comparison is irreflexive. -/
theorem charListLt_irrefl : ∀ as : List Char, charListLt as as = false := by
  intro as
  induction as with
  | nil => rfl
  | cons a as' ih => rw [charListLt, if_neg (lt_irrefl a), if_neg (lt_irrefl a)]; exact ih

/-- Lexicographic character comparison is transitive. -/
theorem charListLt_trans : ∀ {as bs cs : List Char}, charListLt as bs = true →
    charListLt bs cs = true → charListLt as cs = true := by
  intro as
  induction as with
  | nil =>
    intro bs cs h1 h2
    cases bs with
    | nil => simp [charListLt] at h1
    | cons b bs' =>
      cases cs with
      | nil => simp [charListLt] at h2
      | cons c cs' => simp [charListLt]
  | cons a as' ih =>
    intro bs cs h1 h2
    cases bs with
    | nil => simp [charListLt] at h1
    | cons b bs' =>
      cases cs with
      | nil => simp [charListLt] at h2
      | cons c cs' =>
        by_cases hab : a < b
        · by_cases hbc : b < c
          · rw [charListLt, if_pos (lt_trans hab hbc)]
          · by_cases hcb : c < b
            · rw [charListLt, if_neg hbc, if_pos hcb] at h2
              exact absurd h2 (by simp)
            · have hbc' : b = c := le_antisymm (not_lt.mp hcb) (not_lt.mp hbc)
              rw [charListLt, if_pos (hbc' ▸ hab)]
        · by_cases hba : b < a
          · rw [charListLt, if_neg hab, if_pos hba] at h1
            exact absurd h1 (by simp)
          · have hab' : a = b := le_antisymm (not_lt.mp hba) (not_lt.mp hab)
            subst hab'
            rw [charListLt, if_neg hab, if_neg hba] at h1
            by_cases hac : a < c
            · rw [charListLt, if_pos hac]
            · by_cases hca : c < a
              · rw [charListLt, if_neg hac, if_pos hca] at h2
                exact absurd h2 (by simp)
              · rw [charListLt, if_neg hac, if_neg hca] at h2 ⊢
                exact ih h1 h2

/-- Lexicographic character comparison is trichotomous. -/
theorem charListLt_tri : ∀ as bs : List Char,
    charListLt as bs = true ∨ as = bs ∨ charListLt bs as = true := by
  intro as
  induction as with
  | nil =>
    intro bs
    cases bs with
    | nil => exact Or.inr (Or.inl rfl)
    | cons b bs' => exact Or.inl (by rw [charListLt])
  | cons a as' ih =>
    intro bs
    cases bs with
    | nil => exact Or.inr (Or.inr (by rw [charListLt]))
    | cons b bs' =>
      rcases lt_trichotomy a b with h | h | h
      · exact Or.inl (by rw [charListLt, if_pos h])
      · subst h
        rcases ih bs' with h' | h' | h'
        · exact Or.inl (by rw [charListLt, if_neg (lt_irrefl a), if_neg (lt_irrefl a)]; exact h')
        · exact Or.inr (Or.inl (by rw [h']))
        · exact Or.inr (Or.inr
            (by rw [charListLt, if_neg (lt_irrefl a), if_neg (lt_irrefl a)]; exact h'))
      · exact Or.inr (Or.inr (by rw [charListLt, if_pos h]))

/-- String comparison is irreflexive. -/
theorem strLt_irrefl (a : String) : strLt a a = false :=
  charListLt_irrefl a.data

/-- String comparison is transitive. -/
theorem strLt_trans {a b c : String} (h1 : strLt a b = true) (h2 : strLt b c = true) :
    strLt a c = true :=
  charListLt_trans h1 h2

/-- String comparison is trichotomous. -/
theorem strLt_tri (a b : String) : strLt a b = true ∨ a = b ∨ strLt b a = true := by
  rcases charListLt_tri a.data b.data with h | h | h
  · exact Or.inl h
  · refine Or.inr (Or.inl ?_)
    cases a
    cases b
    exact congrArg String.mk h
  · exact Or.inr (Or.inr h)

/-- Key comparison is total. -/
theorem keyLE_total (a b : RawRow) : keyLE a b = true ∨ keyLE b a = true := by
  simp only [keyLE, Bool.or_eq_true, Bool.and_eq_true, beq_iff_eq, decide_eq_true_eq]
  rcases strLt_tri a.name b.name with h | h | h
  · exact Or.inl (Or.inl h)
  · rcases le_total a.year b.year with hy | hy
    · exact Or.inl (Or.inr ⟨h, hy⟩)
    · exact Or.inr (Or.inr ⟨h.symm, hy⟩)
  · exact Or.inr (Or.inl h)

/-- Key comparison is transitive. -/
theorem keyLE_trans {a b c : RawRow} (h1 : keyLE a b = true) (h2 : keyLE b c = true) :
    keyLE a c = true := by
  simp only [keyLE, Bool.or_eq_true, Bool.and_eq_true, beq_iff_eq, decide_eq_true_eq] at *
  rcases h1 with h1 | ⟨h1, hy1⟩ <;> rcases h2 with h2 | ⟨h2, hy2⟩
  · exact Or.inl (strLt_trans h1 h2)
  · exact Or.inl (h2 ▸ h1)
  · exact Or.inl (h1 ▸ h2)
  · exact Or.inr ⟨h1.trans h2, le_trans hy1 hy2⟩

/-- A key-smaller-or-equal row has a name that is smaller or equal. -/
theorem keyLE_name {a b : RawRow} (h : keyLE a b = true) :
    strLt a.name b.name = true ∨ a.name = b.name := by
  simp only [keyLE, Bool.or_eq_true, Bool.and_eq_true, beq_iff_eq, decide_eq_true_eq] at h
  rcases h with h | ⟨h, _⟩
  · exact Or.inl h
  · exact Or.inr h

/-- Two key-ordered rows of the same name have ordered years. -/
theorem keyLE_year_le {a b : RawRow} (h : keyLE a b = true) (hn : a.name = b.name) :
    a.year ≤ b.year := by
  simp only [keyLE, Bool.or_eq_true, Bool.and_eq_true, beq_iff_eq, decide_eq_true_eq] at h
  rcases h with h | ⟨_, hy⟩
  · rw [hn] at h
    exact absurd h (by simp [strLt_irrefl])
  · exact hy

/-- Membership through stable insertion. -/
theorem mem_sInsert {x r : RawRow} : ∀ {l : List RawRow}, x ∈ sInsert r l ↔ x = r ∨ x ∈ l := by
  intro l
  induction l with
  | nil => simp [sInsert]
  | cons y ys ih =>
    rw [sInsert]
    split
    · simp only [List.mem_cons, ih]
      try tauto
    · simp only [List.mem_cons]
      try tauto

/-- Membership through the stable sort. -/
theorem mem_sSort {x : RawRow} {l : List RawRow} : x ∈ sSort l ↔ x ∈ l := by
  have key : ∀ (l acc : List RawRow),
      x ∈ l.foldl (fun a r => sInsert r a) acc ↔ x ∈ acc ∨ x ∈ l := by
    intro l
    induction l with
    | nil => simp
    | cons r rs ih =>
      intro acc
      rw [List.foldl_cons, ih]
      simp only [mem_sInsert, List.mem_cons]
      tauto
  rw [sSort, key]
  simp

/-- Stable insertion preserves key-sortedness. -/
theorem pairwise_sInsert (r : RawRow) :
    ∀ {l : List RawRow}, l.Pairwise (fun a b => keyLE a b = true) →
      (sInsert r l).Pairwise (fun a b => keyLE a b = true) := by
  intro l
  induction l with
  | nil => simp [sInsert]
  | cons y ys ih =>
    intro hp
    rcases List.pairwise_cons.mp hp with ⟨hy, hys⟩
    rw [sInsert]
    split
    · rename_i hyr
      refine List.pairwise_cons.mpr ⟨?_, ih hys⟩
      intro z hz
      rcases mem_sInsert.mp hz with hz | hz
      · exact hz ▸ hyr
      · exact hy z hz
    · rename_i hyr
      have hry : keyLE r y = true := by
        rcases keyLE_total y r with h | h
        · exact absurd h hyr
        · exact h
      refine List.pairwise_cons.mpr ⟨?_, hp⟩
      intro z hz
      rcases List.mem_cons.mp hz with hz | hz
      · exact hz ▸ hry
      · exact keyLE_trans hry (hy z hz)

/-- The stable sort produces a key-sorted list. -/
theorem pairwise_sSort (l : List RawRow) :
    (sSort l).Pairwise (fun a b => keyLE a b = true) := by
  have key : ∀ (l acc : List RawRow),
      acc.Pairwise (fun a b => keyLE a b = true) →
      (l.foldl (fun a r => sInsert r a) acc).Pairwise (fun a b => keyLE a b = true) := by
    intro l
    induction l with
    | nil => intro acc h; simpa using h
    | cons r rs ih =>
      intro acc h
      rw [List.foldl_cons]
      exact ih _ (pairwise_sInsert r h)
  exact key l [] (by simp)

/-- Rows surviving the per-name tail step come from the input. -/
theorem mem_groupTail {x : RawRow} : ∀ {l : List RawRow}, x ∈ groupTail l → x ∈ l := by
  intro l
  induction l with
  | nil => simp [groupTail]
  | cons r rest ih =>
    cases rest with
    | nil => simp [groupTail]
    | cons r' rest' =>
      rw [groupTail]
      intro hx
      split at hx
      · exact List.mem_cons_of_mem r (ih hx)
      · rcases List.mem_cons.mp hx with hx | hx
        · exact hx ▸ List.mem_cons_self _ _
        · exact List.mem_cons_of_mem r (ih hx)

/-- On a key-sorted list, every row kept by the per-name tail step has the
maximal year among the rows of its name. -/
theorem groupTail_max :
    ∀ {l : List RawRow}, l.Pairwise (fun a b => keyLE a b = true) →
      ∀ p ∈ groupTail l, ∀ x ∈ l, x.name = p.name → x.year ≤ p.year := by
  intro l
  induction l with
  | nil => simp [groupTail]
  | cons r rest ih =>
    intro hp p hpg x hx hn
    rcases List.pairwise_cons.mp hp with ⟨hr, htl⟩
    cases rest with
    | nil =>
      simp only [groupTail, List.mem_singleton] at hpg
      subst hpg
      rcases List.mem_singleton.mp hx with hx
      subst hx
      exact le_refl _
    | cons r' rest' =>
      rw [groupTail] at hpg
      split at hpg
      · rename_i hne
        rcases List.mem_cons.mp hx with hx | hx
        · subst hx
          have hpmem : p ∈ r' :: rest' := mem_groupTail hpg
          exact keyLE_year_le (hr p hpmem) hn
        · exact ih htl p hpg x hx hn
      · rename_i hne
        rcases List.mem_cons.mp hpg with hpe | hpg'
        · subst hpe
          rcases List.mem_cons.mp hx with hx | hx
          · exact hx ▸ le_refl _
          · exfalso
            have hne' : ¬ p.name = r'.name := by
              intro he
              rw [beq_iff_eq] at hne
              exact hne he
            have h1 : strLt p.name r'.name = true := by
              rcases keyLE_name (hr r' (List.mem_cons_self _ _)) with h | h
              · exact h
              · exact absurd h hne'
            rcases List.mem_cons.mp hx with hx' | hx'
            · apply hne'
              rw [← hn, hx']
            · rcases keyLE_name ((List.pairwise_cons.mp htl).1 x hx') with h2 | h2
              · have h3 : strLt p.name x.name = true := strLt_trans h1 h2
                rw [hn] at h3
                exact absurd h3 (by simp [strLt_irrefl])
              · rw [h2, hn] at h1
                exact absurd h1 (by simp [strLt_irrefl])
        · rcases List.mem_cons.mp hx with hx | hx
          · subst hx
            have hpmem : p ∈ r' :: rest' := mem_groupTail hpg'
            exact keyLE_year_le (hr p hpmem) hn
          · exact ih htl p hpg' x hx hn

/-- The fold inside `extractOne` returns either its seed candidate or a
candidate from the list. -/
theorem extractOne_best_mem (g : String → Nat) :
    ∀ (cs : List String) (b0 : String) (s0 : Nat),
      (cs.foldl (fun acc c' => if g c' > acc.2 then (c', g c') else acc) (b0, s0)).1 = b0 ∨
      (cs.foldl (fun acc c' => if g c' > acc.2 then (c', g c') else acc) (b0, s0)).1 ∈ cs := by
  intro cs
  induction cs with
  | nil => intro b0 s0; exact Or.inl rfl
  | cons c cs' ih =>
    intro b0 s0
    rw [List.foldl_cons]
    by_cases hc : g c > s0
    · rw [if_pos hc]
      rcases ih c (g c) with h | h
      · refine Or.inr ?_
        rw [h]
        exact List.mem_cons_self _ _
      · exact Or.inr (List.mem_cons_of_mem _ h)
    · rw [if_neg hc]
      rcases ih b0 s0 with h | h
      · exact Or.inl h
      · exact Or.inr (List.mem_cons_of_mem _ h)

/-- The fold inside `extractOne` never lowers the running score and ends at
least as high as every scanned candidate's score. -/
theorem extractOne_max_aux (g : String → Nat) :
    ∀ (cs : List String) (b0 : String) (s0 : Nat),
      s0 ≤ (cs.foldl (fun acc c' => if g c' > acc.2 then (c', g c') else acc) (b0, s0)).2 ∧
      ∀ c ∈ cs, g c ≤ (cs.foldl (fun acc c' => if g c' > acc.2 then (c', g c') else acc) (b0, s0)).2 := by
  intro cs
  induction cs with
  | nil => intro b0 s0; exact ⟨le_refl _, by simp⟩
  | cons c cs' ih =>
    intro b0 s0
    rw [List.foldl_cons]
    by_cases hc : g c > s0
    · rw [if_pos hc]
      obtain ⟨h1, h2⟩ := ih c (g c)
      refine ⟨le_trans (le_of_lt hc) h1, ?_⟩
      intro c' hc'
      rcases List.mem_cons.mp hc' with hc' | hc'
      · exact hc' ▸ h1
      · exact h2 c' hc'
    · rw [if_neg hc]
      obtain ⟨h1, h2⟩ := ih b0 s0
      refine ⟨h1, ?_⟩
      intro c' hc'
      rcases List.mem_cons.mp hc' with hc' | hc'
      · exact hc' ▸ le_trans (not_lt.mp hc) h1
      · exact h2 c' hc'

/-- A best candidate returned by `extractOne` belongs to the choice list and
carries the maximal score. -/
theorem extractOne_spec {g : String → Nat} {l : List String} {b : String} {s : Nat}
    (h : extractOne g l = some (b, s)) : b ∈ l ∧ ∀ c ∈ l, g c ≤ s := by
  cases l with
  | nil => simp [extractOne] at h
  | cons c cs =>
    rw [extractOne] at h
    injection h with h
    constructor
    · rcases extractOne_best_mem g cs c (g c) with h1 | h1
      · rw [h] at h1
        have hb : b = c := h1
        rw [hb]
        exact List.mem_cons_self _ _
      · rw [h] at h1
        have hb : b ∈ cs := h1
        exact List.mem_cons_of_mem _ hb
    · intro c' hc'
      obtain ⟨h1, h2⟩ := extractOne_max_aux g cs c (g c)
      rcases List.mem_cons.mp hc' with hc' | hc'
      · rw [h] at h1
        have hs : g c ≤ s := h1
        exact hc' ▸ hs
      · have h3 := h2 c' hc'
        rw [h] at h3
        exact h3

/-- On a non-empty choice list, `extractOne` returns a candidate. -/
theorem extractOne_ne_none {g : String → Nat} {l : List String} (h : l ≠ []) :
    ∃ b s, extractOne g l = some (b, s) := by
  cases l with
  | nil => exact absurd rfl h
  | cons c cs =>
    exact ⟨(cs.foldl (fun acc c' => if g c' > acc.2 then (c', g c') else acc) (c, g c)).1,
           (cs.foldl (fun acc c' => if g c' > acc.2 then (c', g c') else acc) (c, g c)).2,
           by rw [extractOne, Prod.mk.eta]⟩

/-- First-occurrence deduplication of a non-empty list is non-empty. -/
theorem uniqueNames_ne_nil {l : List String} (h : l ≠ []) : uniqueNames l ≠ [] := by
  cases l with
  | nil => exact absurd rfl h
  | cons x xs =>
    rw [uniqueNames]
    exact List.cons_ne_nil _ _

/-- Every deduplicated name occurs in the original list. -/
theorem uniqueNames_subset : ∀ (l : List String), ∀ x ∈ uniqueNames l, x ∈ l := by
  have key : ∀ (n : Nat) (l : List String), l.length ≤ n → ∀ x ∈ uniqueNames l, x ∈ l := by
    intro n
    induction n with
    | zero =>
      intro l hl x hx
      cases l with
      | nil => simp [uniqueNames] at hx
      | cons y ys => simp at hl
    | succ n ih =>
      intro l hl x hx
      cases l with
      | nil => simp [uniqueNames] at hx
      | cons y ys =>
        rw [uniqueNames] at hx
        rcases List.mem_cons.mp hx with hx | hx'
        · exact hx ▸ List.mem_cons_self _ _
        · have hlen : (ys.filter (fun z => z ≠ y)).length ≤ n :=
            le_trans (List.length_filter_le _ _) (Nat.succ_le_succ_iff.mp (by simpa using hl))
          exact List.mem_cons_of_mem _ (List.mem_of_mem_filter (ih _ hlen x hx'))
  exact fun l => key l.length l (le_refl _)

/-- With a non-empty population frame and its own deduplicated name list as
choices, a single reconciliation step never raises. -/
theorem matchPopE_isSome (popDf : List PRow) (f : String → String → Nat) (cname : String)
    (hne : popDf ≠ []) :
    (matchPopE popDf (uniqueNames (popDf.map (fun r => r.name))) f cname).isSome = true := by
  cases hex : popDf.filter (fun r => strLower r.name == strLower cname) with
  | cons p rest => simp [matchPopE, hex]
  | nil =>
    have hns : uniqueNames (popDf.map (fun r => r.name)) ≠ [] := by
      apply uniqueNames_ne_nil
      intro hmap
      exact hne (List.map_eq_nil_iff.mp hmap)
    obtain ⟨b, s, hbs⟩ := extractOne_ne_none (g := f cname) hns
    by_cases hth : s > FUZZY_THRESHOLD
    · have hbmem : b ∈ popDf.map (fun r => r.name) :=
        uniqueNames_subset _ b (extractOne_spec hbs).1
      rcases List.mem_map.mp hbmem with ⟨r, hr, hrn⟩
      have hfil : r ∈ popDf.filter (fun r' => r'.name == b) :=
        List.mem_filter.mpr ⟨hr, by simp [hrn]⟩
      cases hflt : popDf.filter (fun r' => r'.name == b) with
      | nil => rw [hflt] at hfil; simp at hfil
      | cons q qrest => simp [matchPopE, hex, hbs, hth, hflt]
    · simp [matchPopE, hex, hbs, hth]

/-- If every single reconciliation step succeeds, the whole loop succeeds and
fills an entry for every requested name. -/
theorem buildPopMapAux_isSome (popDf : List PRow) (ns : List String)
    (f : String → String → Nat)
    (hall : ∀ c, (matchPopE popDf ns f c).isSome = true) :
    ∀ (cs : List String) (m : PMap), ∃ m', buildPopMapAux popDf ns f m cs = some m' ∧
      ∀ k, ((m k).isSome = true ∨ k ∈ cs) → (m' k).isSome = true := by
  intro cs
  induction cs with
  | nil =>
    intro m
    refine ⟨m, rfl, ?_⟩
    intro k hk
    rcases hk with h | h
    · exact h
    · simp at h
  | cons c cs' ih =>
    intro m
    cases hmc : matchPopE popDf ns f c with
    | none =>
      have := hall c
      rw [hmc] at this
      simp at this
    | some v =>
      obtain ⟨m', hm', hprop⟩ := ih (pmInsert m c v)
      refine ⟨m', ?_, ?_⟩
      · rw [buildPopMapAux, hmc]
        exact hm'
      · intro k hk
        rcases hk with hk | hk
        · refine hprop k (Or.inl ?_)
          rw [pmInsert]
          by_cases hkc : k = c
          · simp [hkc]
          · simp only [if_neg hkc]
            exact hk
        · rcases List.mem_cons.mp hk with hk' | hk'
          · exact hprop k (Or.inl (by simp [pmInsert, hk']))
          · exact hprop k (Or.inr hk')

/-- Values stored by the reconciliation loop always agree with the per-name
match function. -/
theorem buildPopMapAux_agrees (popDf : List PRow) (ns : List String)
    (f : String → String → Nat) :
    ∀ (cs : List String) (m m' : PMap),
      (∀ k v, m k = some v → matchPopE popDf ns f k = some v) →
      buildPopMapAux popDf ns f m cs = some m' →
      ∀ k v, m' k = some v → matchPopE popDf ns f k = some v := by
  intro cs
  induction cs with
  | nil =>
    intro m m' hag hbm
    rw [buildPopMapAux] at hbm
    injection hbm with hbm
    exact hbm ▸ hag
  | cons c cs' ih =>
    intro m m' hag hbm
    rw [buildPopMapAux] at hbm
    cases hmc : matchPopE popDf ns f c with
    | none =>
      rw [hmc] at hbm
      exact absurd hbm (by simp)
    | some v =>
      rw [hmc] at hbm
      refine ih (pmInsert m c v) m' ?_ hbm
      intro k v' hk
      rw [pmInsert] at hk
      by_cases hkc : k = c
      · rw [if_pos hkc] at hk
        injection hk with hv
        rw [hkc, hmc, hv]
      · rw [if_neg hkc] at hk
        exact hag k v' hk

/-- A successful reconciliation loop fills an entry for every requested name
and loses no existing entry. -/
theorem buildPopMapAux_mem (popDf : List PRow) (ns : List String)
    (f : String → String → Nat) :
    ∀ (cs : List String) (m m' : PMap),
      buildPopMapAux popDf ns f m cs = some m' →
      (∀ k, (m k).isSome = true → (m' k).isSome = true) ∧
      (∀ c ∈ cs, (m' c).isSome = true) := by
  intro cs
  induction cs with
  | nil =>
    intro m m' hbm
    rw [buildPopMapAux] at hbm
    injection hbm with hbm
    exact ⟨fun k hk => hbm ▸ hk, by simp⟩
  | cons c cs' ih =>
    intro m m' hbm
    rw [buildPopMapAux] at hbm
    cases hmc : matchPopE popDf ns f c with
    | none =>
      rw [hmc] at hbm
      exact absurd hbm (by simp)
    | some v =>
      rw [hmc] at hbm
      obtain ⟨hpres, hmem⟩ := ih (pmInsert m c v) m' hbm
      refine ⟨?_, ?_⟩
      · intro k hk
        refine hpres k ?_
        rw [pmInsert]
        by_cases hkc : k = c
        · simp [hkc]
        · simp only [if_neg hkc]
          exact hk
      · intro c' hc'
        rcases List.mem_cons.mp hc' with hc' | hc'
        · exact hpres c' (by simp [pmInsert, hc'])
        · exact hmem c' hc'

/-- The country records emitted by the per-region loop are one per surviving
row, in order, built from the row's own fields and the lookup at its name. -/
theorem mainLoop_countries (look pf : String → Option ℚ) :
    ∀ world : List WorldRow, (∀ r ∈ world, look r.country = pf r.country) →
      (mainLoop look world).2 = (world.filter hasGeom).map (fun r =>
        ⟨r.country, r.iso3, pf r.country, popMillions (pf r.country)⟩) := by
  intro world
  induction world with
  | nil => intro _; rfl
  | cons r rs ih =>
    intro hl
    have hlr := hl r (List.mem_cons_self _ _)
    have hls : ∀ x ∈ rs, look x.country = pf x.country :=
      fun x hx => hl x (List.mem_cons_of_mem _ hx)
    cases hg : r.geometry with
    | none =>
      rw [mainLoop, hg]
      have hgeo : hasGeom r = false := by simp [hasGeom, hg]
      simp only [List.filter_cons, hgeo, Bool.false_eq_true, if_false]
      exact ih hls
    | some g =>
      cases hge : g.empty with
      | true =>
        rw [mainLoop, hg]
        simp only [hge, if_true]
        have hgeo : hasGeom r = false := by simp [hasGeom, hg, hge]
        simp only [List.filter_cons, hgeo, Bool.false_eq_true, if_false]
        exact ih hls
      | false =>
        rw [mainLoop, hg]
        simp only [hge, Bool.false_eq_true, if_false]
        have hgeo : hasGeom r = true := by simp [hasGeom, hg, hge]
        simp only [List.filter_cons, hgeo, if_true, List.map_cons]
        rw [ih hls, hlr]

/-- A parsed row originates in a raw row with the same name, year and value. -/
theorem mem_toParsed {p : PRow} {l : List RawRow} (h : p ∈ toParsed l) :
    ∃ r ∈ l, r.name = p.name ∧ r.year = p.year ∧ r.value = some p.population := by
  rcases List.mem_filterMap.mp h with ⟨r, hrl, hf⟩
  rcases Option.map_eq_some'.mp hf with ⟨v, hv, hgv⟩
  cases p
  cases hgv
  exact ⟨r, hrl, rfl, rfl, hv⟩

/-! Claim theorems. -/

/-- C2 counterexample: with no target-year row and a name whose latest row is
unparseable, the code's order (year selection before dropping unparseable
rows) keeps the unparseable latest row and then drops it, yielding nothing,
while the claimed order (drop first, then select) keeps the latest parseable
row. -/
theorem c2_counterexample :
    download_population_data [⟨"A", 2000, some 5⟩, ⟨"A", 2001, none⟩] = [] ∧
    claimedLoader [⟨"A", 2000, some 5⟩, ⟨"A", 2001, none⟩] = [⟨"A", 2000, 5⟩] ∧
    download_population_data [⟨"A", 2000, some 5⟩, ⟨"A", 2001, none⟩] ≠
      claimedLoader [⟨"A", 2000, some 5⟩, ⟨"A", 2001, none⟩] := by
  refine ⟨by decide, by decide, by decide⟩

/-- C2 (amended): unparseable rows are discarded after the year-selection
step, not before. If any raw row carries the target year, the loader keeps
exactly the target-year rows and then drops the unparseable ones; otherwise
every surviving row comes from a raw row whose year is the latest among all
raw rows (parseable or not) of its name. -/
theorem c2_loader (df : List RawRow) :
    (df.any (fun r => r.year == POP_YEAR) = true →
      download_population_data df = toParsed (df.filter (fun r => r.year == POP_YEAR))) ∧
    (df.any (fun r => r.year == POP_YEAR) = false →
      ∀ p ∈ download_population_data df,
        (∃ r ∈ df, r.name = p.name ∧ r.year = p.year ∧ r.value = some p.population) ∧
        (∀ r ∈ df, r.name = p.name → r.year ≤ p.year)) := by
  constructor
  · intro h
    rw [download_population_data, yearSelect, if_pos h]
  · intro h p hp
    rw [download_population_data, yearSelect, if_neg (by simp [h])] at hp
    rcases mem_toParsed hp with ⟨r, hrg, hname, hyear, hval⟩
    have hrs : r ∈ df := mem_sSort.mp (mem_groupTail hrg)
    refine ⟨⟨r, hrs, hname, hyear, hval⟩, ?_⟩
    intro x hx hxn
    have hmax := groupTail_max (pairwise_sSort df) r hrg x (mem_sSort.mpr hx)
      (by rw [hxn, hname])
    rw [← hyear]
    exact hmax

/-- C2 witness: the target-year branch of the theorem applies to a frame
carrying the target year. -/
theorem c2_loader_witness :
    download_population_data [⟨"B", 2023, some 7⟩] =
      toParsed ([⟨"B", 2023, some 7⟩].filter (fun r => r.year == POP_YEAR)) :=
  (c2_loader [⟨"B", 2023, some 7⟩]).1 (by decide)

/-- C1 counterexample: a region whose matched raw population is negative
(here -2,000,000) receives `population_millions = some (-2)` in the output
record, not `none` as the claim requires. -/
theorem c1_counterexample :
    (mainLoop (fun _ => some (-2000000)) [⟨"Negland", "NEG", some ⟨false, 0, 0, 0⟩⟩]).2 =
      [⟨"Negland", "NEG", some (-2000000), some (-2)⟩] ∧
    (some (-2) : Option ℤ) ≠ none := by
  refine ⟨?_, by simp⟩
  have hceil : popMillions (some (-2000000)) = some (-2) := by
    rw [popMillions, if_neg (by norm_num)]
    congr 1
    rw [Int.ceil_eq_iff]
    norm_num
  simp only [mainLoop, hceil, Bool.false_eq_true, if_false]

/-- C1 (amended): `population_millions` is the ceiling of
`population_raw / 1,000,000` whenever the raw value is nonzero (in particular
whenever it is strictly positive), and is null exactly when the region is
unmatched or the raw value is zero; a negative raw value yields a number
(its ceiling), not null. Every output record is bucketed this way from its
own raw value. -/
theorem c1_millions (v : ℚ) (look : String → Option ℚ) (w : List WorldRow)
    (hv : v ≠ 0) :
    popMillions none = none ∧
    popMillions (some 0) = none ∧
    popMillions (some v) = some ⌈v / 1000000⌉ ∧
    (v < 0 → popMillions (some v) ≠ none) ∧
    (∀ rec ∈ (mainLoop look w).2, rec.population_millions = popMillions rec.population_raw) := by
  refine ⟨rfl, by simp [popMillions], by simp [popMillions, hv], ?_, mainLoop_millions look w⟩
  intro _
  simp [popMillions, hv]

/-- C1 witness: at raw population 1,000,001 the theorem applies and the bucket
is 2 million. -/
theorem c1_millions_witness :
    popMillions (some 1000001) = some ⌈(1000001 : ℚ) / 1000000⌉ ∧
    ⌈(1000001 : ℚ) / 1000000⌉ = 2 :=
  ⟨(c1_millions 1000001 (fun _ => none) [] (by norm_num)).2.2.1,
   by rw [Int.ceil_eq_iff]; norm_num⟩

/-- C5: the side count is the stated total step function of the radius, it is
monotonically non-decreasing in the radius, and it always lies in
{4, 6, 8, 12}. -/
theorem c5_sides_step (r : ℝ) :
    (r < 0.8 → sidesOf r = 4) ∧
    (0.8 ≤ r → r < 2.0 → sidesOf r = 6) ∧
    (2.0 ≤ r → r < 4.0 → sidesOf r = 8) ∧
    (4.0 ≤ r → sidesOf r = 12) ∧
    (∀ r', r ≤ r' → sidesOf r ≤ sidesOf r') ∧
    (sidesOf r = 4 ∨ sidesOf r = 6 ∨ sidesOf r = 8 ∨ sidesOf r = 12) := by
  refine ⟨?_, ?_, ?_, ?_, ?_, ?_⟩
  · intro h; rw [sidesOf, if_pos h]
  · intro h1 h2; rw [sidesOf, if_neg (by linarith), if_pos h2]
  · intro h1 h2; rw [sidesOf, if_neg (by linarith), if_neg (by linarith), if_pos h2]
  · intro h
    rw [sidesOf, if_neg (by linarith), if_neg (by linarith), if_neg (by linarith)]
  · intro r' hle
    rw [sidesOf, sidesOf]
    split_ifs <;> (first | (exfalso; linarith) | norm_num)
  · rw [sidesOf]; split_ifs <;> simp

/-- C5 witness: radius 1 gives 6 sides and radius 4 gives 12 sides. -/
theorem c5_sides_step_witness : sidesOf 1 = 6 ∧ sidesOf 4 = 12 :=
  ⟨(c5_sides_step 1).2.1 (by norm_num) (by norm_num),
   (c5_sides_step 4).2.2.2.1 (by norm_num)⟩

/-- C6: for every non-negative area the radius is `max(0.5, sqrt(area)*0.6)`,
hence at least 0.5, and area 0 gives exactly 0.5. -/
theorem c6_radius (a : ℝ) (h : 0 ≤ a) :
    radiusOf a = max 0.5 (Real.sqrt a * 0.6) ∧
    0.5 ≤ radiusOf a ∧
    radiusOf 0 = 0.5 := by
  refine ⟨rfl, le_max_left _ _, ?_⟩
  rw [radiusOf, Real.sqrt_zero, zero_mul]
  exact max_eq_left (by norm_num)

/-- C6 witness: the theorem applies at area 0. -/
theorem c6_radius_witness : radiusOf 0 = 0.5 :=
  (c6_radius 0 le_rfl).2.2

/-- C8: the pipeline is deterministic (equal inputs give equal outputs), the
per-region loop synthesizes geometry purely from the row's anchor point and
area with rotation offset 0.5, and each polygon vertex is the stated
function of (center, radius, side count, rotation). -/
theorem c8_deterministic (f₁ f₂ : String → String → Nat) (p₁ p₂ : List RawRow)
    (w₁ w₂ : List WorldRow) (hf : f₁ = f₂) (hp : p₁ = p₂) (hw : w₁ = w₂) :
    runPipeline f₁ p₁ w₁ = runPipeline f₂ p₂ w₂ ∧
    (∀ look rs c i g, g.empty = false →
      mainLoop look (⟨c, i, some g⟩ :: rs) =
        (make_regular_polygon g.repX g.repY (radiusOf g.area)
            (sidesOf (radiusOf g.area)) 0.5 :: (mainLoop look rs).1,
         ⟨c, i, look c, popMillions (look c)⟩ :: (mainLoop look rs).2)) ∧
    (∀ cx cy rad n rot, make_regular_polygon cx cy rad n rot =
      (List.range n).map (fun j =>
        (cx + rad * Real.cos (rot + 2 * Real.pi * j / n),
         cy + rad * Real.sin (rot + 2 * Real.pi * j / n)))) := by
  subst hf hp hw
  refine ⟨rfl, ?_, fun _ _ _ _ _ => rfl⟩
  intro look rs c i g hg
  rw [mainLoop]
  simp [hg]

/-- C8 witness: the theorem applies to two syntactically identical inputs. -/
theorem c8_deterministic_witness :
    runPipeline (fun _ _ => 0) [] [] = runPipeline (fun _ _ => 0) [] [] :=
  (c8_deterministic (fun _ _ => 0) (fun _ _ => 0) [] [] [] [] rfl rfl rfl).1

/-- C9: a region whose geometry is missing or empty is skipped entirely:
the run over any world list containing it equals the run over the same list
with it removed, so it reaches neither the synthesizer nor the output and
other regions are unaffected. -/
theorem c9_skip (r : WorldRow)
    (h : r.geometry = none ∨ ∃ g, r.geometry = some g ∧ g.empty = true) :
    ∀ (look : String → Option ℚ) (pre post : List WorldRow),
      mainLoop look (pre ++ r :: post) = mainLoop look (pre ++ post) := by
  intro look pre post
  induction pre with
  | nil =>
    rcases h with h | ⟨g, hg, he⟩
    · simp only [List.nil_append]
      rw [mainLoop, h]
    · simp only [List.nil_append]
      rw [mainLoop, hg]
      simp only [he, if_true]
  | cons p ps ih =>
    simp only [List.cons_append]
    cases hp : p.geometry with
    | none => simp only [mainLoop, hp]; exact ih
    | some g =>
      cases hge : g.empty with
      | true => simp only [mainLoop, hp, hge, if_true]; exact ih
      | false => simp only [mainLoop, hp, hge, Bool.false_eq_true, if_false, ih]

/-- C9 witness: the theorem applies to a row with missing geometry. -/
theorem c9_skip_witness :
    mainLoop (fun _ => none) ([] ++ ⟨"Nowhere", "NWH", none⟩ :: []) =
      mainLoop (fun _ => none) ([] ++ []) :=
  c9_skip ⟨"Nowhere", "NWH", none⟩ (Or.inl rfl) (fun _ => none) [] []

/-- C3: when a canonical name has no case-insensitive exact match, the score
returned by the fuzzy step is the highest similarity against the source
names; a score strictly above 85 yields the best-scoring source name's
population value (its first row's value), and a score of at most 85 yields
null (unmatched). -/
theorem c3_fuzzy (popDf : List PRow) (popNames : List String)
    (f : String → String → Nat) (cname best : String) (score : Nat)
    (hex : popDf.filter (fun r => strLower r.name == strLower cname) = [])
    (hfz : extractOne (f cname) popNames = some (best, score)) :
    (∀ c ∈ popNames, f cname c ≤ score) ∧
    (score ≤ 85 → matchPopE popDf popNames f cname = some none) ∧
    (∀ p rest, 85 < score →
      popDf.filter (fun r => r.name == best) = p :: rest →
      matchPopE popDf popNames f cname = some (some p.population)) := by
  refine ⟨(extractOne_spec hfz).2, ?_, ?_⟩
  · intro hle
    simp only [matchPopE, hex, hfz]
    rw [if_neg (by simp [FUZZY_THRESHOLD]; omega)]
  · intro p rest hgt hflt
    simp only [matchPopE, hex, hfz, hflt]
    rw [if_pos (show score > FUZZY_THRESHOLD from hgt)]

/-- C3 witness: name with no exact match, fuzzy score 90 against "Albania",
so Albania's value 3 is returned. -/
theorem c3_fuzzy_witness :
    matchPopE [⟨"Albania", 2023, 3⟩] ["Albania"]
      (fun _ c => if c == "Albania" then 90 else 0) "Xyz" = some (some 3) :=
  (c3_fuzzy [⟨"Albania", 2023, 3⟩] ["Albania"]
      (fun _ c => if c == "Albania" then 90 else 0) "Xyz" "Albania" 90
      (by decide) (by decide)).2.2 ⟨"Albania", 2023, 3⟩ [] (by decide) (by decide)

/-- C4: a canonical name with a case-insensitive exact match gets the first
matching row's population value, and the result does not depend on the fuzzy
scorer at all — the fuzzy fallback is never consulted. -/
theorem c4_exact (popDf : List PRow) (popNames : List String)
    (f g : String → String → Nat) (cname : String) (p : PRow) (rest : List PRow)
    (hex : popDf.filter (fun r => strLower r.name == strLower cname) = p :: rest) :
    matchPopE popDf popNames f cname = some (some p.population) ∧
    matchPopE popDf popNames f cname = matchPopE popDf popNames g cname := by
  constructor
  · simp only [matchPopE, hex]
  · simp only [matchPopE, hex]

/-- C4 witness: "aLBANIA" matches "Albania" case-insensitively; the result is
its value 5 under two entirely different scorers. -/
theorem c4_exact_witness :
    matchPopE [⟨"aLBANIA", 2023, 5⟩] [] (fun _ _ => 0) "Albania" = some (some 5) ∧
    matchPopE [⟨"aLBANIA", 2023, 5⟩] [] (fun _ _ => 0) "Albania" =
      matchPopE [⟨"aLBANIA", 2023, 5⟩] [] (fun _ _ => 100) "Albania" :=
  c4_exact [⟨"aLBANIA", 2023, 5⟩] [] (fun _ _ => 0) (fun _ _ => 100) "Albania"
    ⟨"aLBANIA", 2023, 5⟩ [] (by decide)

/-- C7: with a non-empty population frame, every single reconciliation step
returns a result (possibly null) rather than raising — in particular the
fuzzy-branch row lookup cannot fail because the candidate comes from the
frame's own deduplicated name list — and the whole loop succeeds, assigning
exactly one entry to every canonical name it visits. -/
theorem c7_total (popDf : List PRow) (f : String → String → Nat)
    (cnames : List String) (hne : popDf ≠ []) :
    (∀ cname,
      (matchPopE popDf (uniqueNames (popDf.map (fun r => r.name))) f cname).isSome = true) ∧
    (∃ m, buildPopMap popDf (uniqueNames (popDf.map (fun r => r.name))) f cnames = some m ∧
      ∀ c ∈ cnames, (m c).isSome = true) := by
  have hall := fun cname => matchPopE_isSome popDf f cname hne
  refine ⟨hall, ?_⟩
  obtain ⟨m, hm, hprop⟩ :=
    buildPopMapAux_isSome popDf (uniqueNames (popDf.map (fun r => r.name))) f hall cnames pmEmpty
  exact ⟨m, hm, fun c hc => hprop c (Or.inr hc)⟩

/-- C7 witness: the theorem applies to a one-row frame and an unmatched
canonical name. -/
theorem c7_total_witness :
    (∀ cname,
      (matchPopE [⟨"x", 2023, 1⟩]
        (uniqueNames (([⟨"x", 2023, 1⟩] : List PRow).map (fun r => r.name)))
        (fun _ _ => 0) cname).isSome = true) ∧
    (∃ m, buildPopMap [⟨"x", 2023, 1⟩]
        (uniqueNames (([⟨"x", 2023, 1⟩] : List PRow).map (fun r => r.name)))
        (fun _ _ => 0) ["y"] = some m ∧ ∀ c ∈ ["y"], (m c).isSome = true) :=
  c7_total [⟨"x", 2023, 1⟩] (fun _ _ => 0) ["y"] (by decide)

/-- C10: when the reconciliation loop over the world's names succeeds, the
output countries list has exactly one record per region with non-empty
geometry, in the boundary dataset's order, and each record carries that
region's own name, iso3 code and the shared name-keyed population lookup
(so duplicate names receive the same value). -/
theorem c10_output (popDf : List PRow) (ns : List String) (f : String → String → Nat)
    (world : List WorldRow) (m : PMap)
    (hm : buildPopMap popDf ns f (world.map (fun r => r.country)) = some m) :
    (mainLoop (pmGet m) world).2 =
      (world.filter hasGeom).map (fun r =>
        ⟨r.country, r.iso3, (matchPopE popDf ns f r.country).getD none,
          popMillions ((matchPopE popDf ns f r.country).getD none)⟩) := by
  rw [buildPopMap] at hm
  obtain ⟨hpres, hmem⟩ := buildPopMapAux_mem popDf ns f (world.map (fun r => r.country)) pmEmpty m hm
  have hagree := buildPopMapAux_agrees popDf ns f (world.map (fun r => r.country)) pmEmpty m
    (fun k v hk => by rw [pmEmpty] at hk; cases hk) hm
  refine mainLoop_countries (pmGet m) (fun c => (matchPopE popDf ns f c).getD none) world ?_
  intro r hr
  have hkmem : r.country ∈ world.map (fun r => r.country) :=
    List.mem_map_of_mem _ hr
  have hsome := hmem r.country hkmem
  cases hmk : m r.country with
  | none => rw [hmk] at hsome; simp at hsome
  | some v =>
    have hv := hagree r.country v hmk
    show (m r.country).getD none = (matchPopE popDf ns f r.country).getD none
    rw [hmk, hv]

/-- C10 witness: a one-region world reconciled against a one-row frame. -/
theorem c10_output_witness :
    (mainLoop (pmGet (pmInsert pmEmpty "ab" (some 7)))
        [⟨"ab", "ABW", some ⟨false, 0, 0, 1⟩⟩]).2 =
      ([⟨"ab", "ABW", some ⟨false, 0, 0, 1⟩⟩].filter hasGeom).map (fun r =>
        ⟨r.country, r.iso3,
          (matchPopE [⟨"AB", 2023, 7⟩] [] (fun _ _ => 0) r.country).getD none,
          popMillions ((matchPopE [⟨"AB", 2023, 7⟩] [] (fun _ _ => 0) r.country).getD none)⟩) :=
  c10_output [⟨"AB", 2023, 7⟩] [] (fun _ _ => 0)
    [⟨"ab", "ABW", some ⟨false, 0, 0, 1⟩⟩] (pmInsert pmEmpty "ab" (some 7)) rfl

end WorldBox
